import Mathlib

/-!
Verification of the TechTrends ingestion/normalization/storage pipeline.

The definitions below are a shallow embedding of the Python sources:
* src/data_processing.py  (DataProcessor: extract_keywords, categorize_by_keywords,
  articles_to_dataframe numeric coercion, get_top_articles)
* src/database.py         (Database: insert_articles, get_all_articles,
  search_articles, save_search, _to_str_date)
* src/api_devto.py        (DevToAPI._fetch record shaping)
* src/scraper_hackernews.py (HackerNewsScraper.scrape_frontpage record shaping)
* config.py               (TECH_KEYWORDS)

Machine strings are modelled as Lean strings (Python str.lower and SQLite LIKE
case folding are modelled with the ASCII fold of Char.toLower, matching SQLite's
ASCII-only LIKE folding); Python dictionaries that come from JSON records are
modelled as structures of Option-typed fields (none = key absent), and the
dictionaries the adapters build are modelled as association lists so that
key presence is observable.
-/

namespace TechTrends

/-! ## String machinery: Python's `in` operator (literal substring search) -/

/-- Is the first character list a prefix of the second? -/
def isPref : List Char → List Char → Bool
  | [], _ => true
  | _ :: _, [] => false
  | a :: as, b :: bs => a == b && isPref as bs

/-- Does `k` occur as a contiguous sublist of `t`?  This is Python's
`k in t` on strings and the core of SQLite's `LIKE '%k%'`. -/
def occursIn (k : List Char) : List Char → Bool
  | [] => k.isEmpty
  | c :: ts => isPref k (c :: ts) || occursIn k ts

/-- Python `k in t` on strings. -/
def strOccursIn (k t : String) : Bool := occursIn k.data t.data

/-- The character sequence of `s.lower()` (Python str.lower / SQLite's
ASCII LIKE folding, modelled by the per-character fold). -/
def lowerData (s : String) : List Char := s.data.map Char.toLower

/-! ## DataProcessor.extract_keywords (src/data_processing.py lines 70-81) -/

/-- The stop-word set from DataProcessor.__init__. -/
def stopWords : List String :=
  ["the", "a", "an", "and", "or", "but", "in", "on", "at", "to", "for",
   "of", "with", "by", "from", "as", "is", "was", "are", "were", "be",
   "been", "being", "have", "has", "had", "do", "does", "did", "will",
   "would", "should", "could", "may", "might", "can", "this", "that",
   "these", "those", "i", "you", "he", "she", "it", "we", "they"]

/-- A regex word character (the class matched by backslash-w, ASCII model). -/
def isWordChar (c : Char) : Bool := c.isAlphanum || c == '_'

/-- Lower-case, then replace every character that is neither a word character
nor whitespace by a space: `text.lower()` followed by
`re.sub(r"[^\w\s]", " ", text)`. -/
def cleanChars (s : String) : List Char :=
  (lowerData s).map (fun c => if isWordChar c || c.isWhitespace then c else ' ')

/-- Accumulating splitter behind Python `str.split()`: `cur` holds the
(reversed) characters of the word being read. -/
def wordsAux (cur : List Char) : List Char → List (List Char)
  | [] => if cur.isEmpty then [] else [cur.reverse]
  | c :: cs =>
    if c.isWhitespace then
      if cur.isEmpty then wordsAux [] cs
      else cur.reverse :: wordsAux [] cs
    else wordsAux (c :: cur) cs

/-- Python `str.split()` with no argument: split on whitespace runs,
dropping empty fragments. -/
def splitWs (l : List Char) : List String :=
  (wordsAux [] l).map String.mk

/-- The token stream of extract_keywords: cleaned text split on whitespace. -/
def tokenize (text : String) : List String := splitWs (cleanChars text)

/-- The filter comprehension in extract_keywords: drop stop-words and
tokens of length at most 3. -/
def filteredWords (text : String) : List String :=
  (tokenize text).filter (fun w => !(stopWords.contains w) && decide (3 < w.length))

/-- First occurrences of each word, in first-encountered order: the key
sequence of a Python Counter built from the list. -/
def firstOccs : List String → List String
  | [] => []
  | w :: ws => w :: (firstOccs ws).filter (fun x => x != w)

/-- The items of `Counter(filtered)` in insertion order: each distinct word
paired with its multiplicity. -/
def counterItems (text : String) : List (String × Nat) :=
  (firstOccs (filteredWords text)).map (fun w => (w, (filteredWords text).count w))

/-- Insert `x` into a list that is descending for the "goes after" test
`le` (`le x y` = x may be placed after y): keep every entry that x may
follow before it.  Inserting the input's elements left to right with this
placement is a stable descending sort. -/
def insBy (le : α → α → Bool) (x : α) : List α → List α
  | [] => [x]
  | y :: ys => if le x y then y :: insBy le x ys else x :: y :: ys

/-- Stable descending sort by repeated insertion. -/
def sortByDesc (le : α → α → Bool) (l : List α) : List α :=
  l.foldl (fun acc x => insBy le x acc) []

/-- Stable sort by count, descending: the order produced by
`Counter.most_common` (equivalent to `sorted(items, key=count, reverse=True)`,
which keeps insertion order on ties). -/
def sortCountDesc (l : List (String × Nat)) : List (String × Nat) :=
  sortByDesc (fun x y => decide (x.2 ≤ y.2)) l

/-- `Counter.most_common(n)`: the n largest items by count, stably ordered. -/
def mostCommon (items : List (String × Nat)) (n : Nat) : List (String × Nat) :=
  (sortCountDesc items).take n

/-- DataProcessor.extract_keywords: empty text short-circuits to `[]`;
otherwise lower-case, strip punctuation, split, filter, count, and return
the top_n most common (word, count) pairs. -/
def extract_keywords (text : String) (top_n : Nat) : List (String × Nat) :=
  if text = "" then []
  else mostCommon (counterItems text) top_n

/-! ## DataProcessor.categorize_by_keywords (src/data_processing.py lines 83-99) -/

/-- The score of one keyword group against a lower-cased title (given as a
character sequence): `sum(1 for k in kws if k.lower() in t)`. -/
def catScore (t : List Char) (kws : List String) : Nat :=
  (kws.filter (fun k => occursIn (lowerData k) t)).length

/-- `max(scores, key=scores.get)` over a non-empty association list in
iteration order: Python's max keeps the current best on ties, so the first
entry attaining the maximum wins. -/
def firstMax (s : String × Nat) (ss : List (String × Nat)) : String × Nat :=
  ss.foldl (fun best x => if best.2 < x.2 then x else best) s

/-- The inner `find_cat` of categorize_by_keywords: lower-case the title,
score every keyword group, keep the groups with positive score (dict
insertion order = configured iteration order), and return the first group
attaining the maximal score, or "Other" when no group scores. -/
def find_cat (title : String) (kd : List (String × List String)) : String :=
  let t := lowerData title
  let scores := (kd.map (fun p => (p.1, catScore t p.2))).filter (fun p => decide (0 < p.2))
  match scores with
  | [] => "Other"
  | s :: ss => (firstMax s ss).1

/-- The TECH_KEYWORDS configuration from config.py, in its literal
(insertion) order. -/
def TECH_KEYWORDS : List (String × List String) :=
  [("AI", ["ai", "artificial intelligence", "machine learning", "deep learning", "llm", "gpt", "chatgpt"]),
   ("Python", ["python", "django", "flask", "fastapi", "pandas", "numpy"]),
   ("JavaScript", ["javascript", "nodejs", "react", "vue", "angular", "typescript"]),
   ("DevOps", ["docker", "kubernetes", "ci/cd", "jenkins", "github actions", "terraform"]),
   ("Web", ["web development", "frontend", "backend", "api", "rest", "graphql"]),
   ("Data", ["data science", "data analysis", "big data", "analytics", "visualization"]),
   ("Cloud", ["aws", "azure", "gcp", "cloud computing", "serverless"]),
   ("Security", ["cybersecurity", "security", "encryption", "vulnerability", "penetration testing"])]

/-! ## Numeric normalization (src/data_processing.py lines 47-51) -/

/-- The numeric value of a digit run. -/
def digitsToNat (l : List Char) : Nat :=
  l.foldl (fun n c => 10 * n + (c.toNat - 48)) 0

/-- Parse a non-empty all-digit character run, as Python `int` accepts. -/
def parseNatChars (l : List Char) : Option Nat :=
  if !l.isEmpty && l.all Char.isDigit then some (digitsToNat l) else none

/-- Parse an optionally-negated digit run as an integer (Python `int`). -/
def parseIntChars : List Char → Option Int
  | '-' :: rest => (parseNatChars rest).map (fun n => -(n : Int))
  | l => (parseNatChars l).map (fun n => (n : Int))

/-- A raw cell of a numeric column before coercion: absent/NaN, a string,
or an integer. -/
inductive RawNum
  | rna
  | rstr (s : String)
  | rint (z : Int)
deriving DecidableEq

/-- `pd.to_numeric(col, errors="coerce")` on one cell: integers pass through,
integer-shaped strings parse, everything else becomes NaN (`none`). -/
def to_numeric : RawNum → Option Int
  | .rna => none
  | .rint z => some z
  | .rstr s => parseIntChars s.data

/-- The full normalization of one numeric cell:
`pd.to_numeric(col, errors="coerce").fillna(0).astype(int)`. -/
def coerceNum (c : RawNum) : Int := (to_numeric c).getD 0

/-! ## Database model (src/database.py) -/

/-- A persisted row of the `articles` table (the AUTOINCREMENT id is left
implicit: it carries no information the claims mention). -/
structure Article where
  title : String
  url : String
  source : String
  author : String
  description : String
  published_at : Option String
  scraped_at : Option String
  points : Int
  comments : Int
  reactions : Int
  reading_time : Int
  category : String
  tags : String
deriving DecidableEq

/-- An input record for insert_articles: a Python dict whose keys may be
absent (`none`).  Date-like values are carried as strings, as they are after
`isoformat()`/`str()`. -/
structure InArticle where
  title : Option String := none
  url : Option String := none
  source : Option String := none
  author : Option String := none
  description : Option String := none
  published_at : Option String := none
  fetched_at : Option String := none
  scraped_at : Option String := none
  points : Option Int := none
  comments : Option Int := none
  reactions : Option Int := none
  reading_time : Option Int := none
  category : Option String := none
  tags : Option (List String) := none
deriving DecidableEq

/-- Database._to_str_date on a string-or-None value: None stays None, the
strings "NaT" and "nan" become None, every other string passes through
(str of a string is itself). -/
def to_str_date : Option String → Option String
  | none => none
  | some s => if s = "NaT" || s = "nan" then none else some s

/-- `article.get("published_at") or article.get("fetched_at")`: the only
falsy strings are empty ones, so an absent or empty published_at falls back
to fetched_at. -/
def pubRaw (a : InArticle) : Option String :=
  match a.published_at with
  | some s => if s = "" then a.fetched_at else some s
  | none => a.fetched_at

/-- `",".join(tags)`. -/
def joinTags : List String → String
  | [] => ""
  | [t] => t
  | t :: rest => t ++ "," ++ joinTags rest

/-- The tuple bound by the INSERT statement in insert_articles, with every
`.get` default applied. -/
def mkRow (a : InArticle) : Article :=
  { title := a.title.getD ""
    url := a.url.getD ""
    source := a.source.getD ""
    author := a.author.getD ""
    description := a.description.getD ""
    published_at := to_str_date (pubRaw a)
    scraped_at := to_str_date a.scraped_at
    points := a.points.getD 0
    comments := a.comments.getD 0
    reactions := a.reactions.getD 0
    reading_time := a.reading_time.getD 0
    category := a.category.getD ""
    tags := joinTags (a.tags.getD []) }

/-- Does inserting `r` violate a uniqueness constraint against existing row
`s`?  The schema declares UNIQUE(title, source) and `url TEXT UNIQUE`; the
bound url is never NULL (it defaults to ""), so both constraints compare by
equality. -/
def conflictsWith (r s : Article) : Bool :=
  (r.title == s.title && r.source == s.source) || r.url == s.url

/-- One `INSERT OR IGNORE` executed by insert_articles: on any uniqueness
violation the statement is ignored (rowcount 0), otherwise the row is
appended and counted. -/
def insertOne (store : List Article) (a : InArticle) : List Article × Bool :=
  let row := mkRow a
  if store.any (fun s => conflictsWith row s) then (store, false)
  else (store ++ [row], true)

/-- Database.insert_articles: the loop over the input list, counting the
statements whose rowcount was positive. -/
def insert_articles (store : List Article) : List InArticle → List Article × Nat
  | [] => (store, 0)
  | a :: rest =>
    let p := insertOne store a
    let q := insert_articles p.1 rest
    (q.1, (if p.2 then 1 else 0) + q.2)

/-- The UNIQUE(title, source) key of the row an input record binds. -/
def rowKey (a : InArticle) : String × String := ((mkRow a).title, (mkRow a).source)

/-! ## Ordering and reads (src/database.py lines 184-243) -/

/-- SQLite ordering key comparison for `published_at DESC`: NULL is smaller
than every text value, and TEXT compares bytewise (which on UTF-8 agrees
with the code-point order of Lean's String order). -/
def optLe : Option String → Option String → Bool
  | none, _ => true
  | some _, none => false
  | some s, some t => decide (s ≤ t)

/-- `ORDER BY published_at DESC` (one consistent refinement of SQLite's
unspecified tie order: stable). NULLs come last, as SQLite puts the
smallest values last in a descending order. -/
def sortByPubDesc (l : List Article) : List Article :=
  sortByDesc (fun x y => optLe x.published_at y.published_at) l

/-- The whole persisted state: the articles table and the search_history
log (query text and results_count, in insertion order). -/
structure DB where
  articles : List Article
  history : List (String × Nat)
deriving DecidableEq

/-- Database.get_all_articles: `if limit:` only appends a LIMIT clause for a
truthy (non-zero) limit, and SQLite treats a negative LIMIT as unlimited. -/
def get_all_articles (db : DB) (limit : Option Int) : List Article :=
  let sorted := sortByPubDesc db.articles
  match limit with
  | none => sorted
  | some n => if n = 0 then sorted
              else if n < 0 then sorted
              else sorted.take n.toNat

/-- One row's match against `title LIKE '%kw%' OR description LIKE '%kw%'`
(ASCII-case-insensitive substring, SQLite's LIKE folding). -/
def matchesKw (kw : String) (r : Article) : Bool :=
  occursIn (lowerData kw) (lowerData r.title) ||
  occursIn (lowerData kw) (lowerData r.description)

/-- Database.search_articles: select the matching rows (ordered by
published_at DESC), then save_search appends one history row holding the
literal query text and the result count. -/
def search_articles (db : DB) (kw : String) : List Article × DB :=
  let res := sortByPubDesc (db.articles.filter (matchesKw kw))
  (res, { db with history := db.history ++ [(kw, res.length)] })

/-- Repeated searches, threading the store state. -/
def searchMany (db : DB) : List String → DB
  | [] => db
  | q :: qs => searchMany (search_articles db q).2 qs

/-! ## DataProcessor.get_top_articles (src/data_processing.py lines 109-113) -/

/-- The column set of a DataFrame read back from the articles table. -/
def articleCols : List String :=
  ["id", "title", "url", "source", "author", "description", "published_at",
   "scraped_at", "points", "comments", "reactions", "reading_time",
   "category", "tags"]

/-- The numeric value a metric name selects on a row (0 for the columns
nlargest would reject; only known columns are ever ranked by). -/
def metricVal (m : String) (r : Article) : Int :=
  if m = "points" then r.points
  else if m = "comments" then r.comments
  else if m = "reactions" then r.reactions
  else if m = "reading_time" then r.reading_time
  else 0

/-- DataProcessor.get_top_articles: empty input or an unknown column yields
an empty result; otherwise the top_n rows by descending metric (pandas
nlargest is stable, keeping first occurrences on ties). -/
def get_top_articles (df : List Article) (metric : String) (top_n : Nat) : List Article :=
  if df.isEmpty || !(decide (metric ∈ articleCols)) then []
  else (sortByDesc (fun x y => decide (metricVal metric x ≤ metricVal metric y)) df).take top_n

/-! ## The categorize-then-persist pipeline (app/streamlit_app.py lines 157-163) -/

/-- categorize_by_keywords on one record: `df["category"] = df["title"].apply(find_cat)`
(titles were `fillna("")`-normalized when the frame was built). -/
def categorizeRow (kd : List (String × List String)) (a : InArticle) : InArticle :=
  { a with category := some (find_cat (a.title.getD "") kd) }

/-- The pipeline step the app runs: categorize every record against a
keyword configuration, then insert_articles. -/
def categorizeAndInsert (store : List Article) (kd : List (String × List String))
    (rows : List InArticle) : List Article × Nat :=
  insert_articles store (rows.map (categorizeRow kd))

/-! ## Source adapters (src/api_devto.py, src/scraper_hackernews.py) -/

/-- A value of one of the adapter dictionaries. -/
inductive JVal
  | js (s : String)
  | jn (n : Int)
  | jlist (l : List String)
deriving DecidableEq

/-- A raw Dev.to JSON article, fields optional (`none` = key absent).
`user` is the nested author object: absent, or present with an optional
name. -/
structure RawDevto where
  title : Option String := none
  description : Option String := none
  url : Option String := none
  published_at : Option String := none
  tag_list : Option (List String) := none
  positive_reactions_count : Option Int := none
  comments_count : Option Int := none
  reading_time_minutes : Option Int := none
  user : Option (Option String) := none
deriving DecidableEq

/-- The dict DevToAPI._fetch builds for one raw article, with every `.get`
default applied (`now` is `datetime.now().isoformat()`). -/
def devtoProcess (now : String) (art : RawDevto) : List (String × JVal) :=
  [("title", .js (art.title.getD "")),
   ("description", .js (art.description.getD "")),
   ("url", .js (art.url.getD "")),
   ("published_at", .js (art.published_at.getD "")),
   ("tags", .jlist (art.tag_list.getD [])),
   ("reactions", .jn (art.positive_reactions_count.getD 0)),
   ("comments", .jn (art.comments_count.getD 0)),
   ("reading_time", .jn (art.reading_time_minutes.getD 0)),
   ("author", .js ((art.user.getD none).getD "Unknown")),
   ("source", .js "Dev.to"),
   ("fetched_at", .js now)]

/-- DevToAPI._fetch: a failed or malformed fetch is caught and yields `[]`;
a successful one maps every raw record to its processed dict. -/
def devto_fetch (now : String) (resp : Except String (List RawDevto)) :
    List (List (String × JVal)) :=
  match resp with
  | .error _ => []
  | .ok arts => arts.map (devtoProcess now)

/-- One parsed HackerNews story entry: the title link (absent when the
span holds no anchor), the score span's text, the texts of the subtext
links (the last one may carry the comment count), and the author tag. -/
structure RawHNItem where
  link : Option (String × String) := none
  scoreText : Option String := none
  linkTexts : List String := []
  author : Option String := none
deriving DecidableEq

/-- `int(txt.split()[0]) if txt else 0` under the per-item try: absent span
or empty text give 0; a non-integer first token (or no token) raises and the
item is skipped (`none`). -/
def parsePoints : Option String → Option Int
  | none => some 0
  | some txt =>
    if txt = "" then some 0
    else match splitWs txt.data with
      | [] => none
      | w :: _ => match parseIntChars w.data with
        | some z => some z
        | none => none

/-- The comment-count extraction: the last subtext link's text, when it
mentions "comment", contributes its first token if that token is all
digits, else 0. -/
def parseComments (links : List String) : Int :=
  match links.getLast? with
  | none => 0
  | some last =>
    if strOccursIn "comment" last then
      match splitWs last.data with
      | [] => 0
      | w :: _ => match parseNatChars w.data with
        | some n => (n : Int)
        | none => 0
    else 0

/-- The HackerNews base address. -/
def hnBase : String := "https://news.ycombinator.com/"

/-- One iteration of the scrape loop: skip entries without a link anchor or
with an unparseable score; otherwise build the article dict with its
constant defaults. -/
def hnItemDict (now : String) (it : RawHNItem) : Option (List (String × JVal)) :=
  match it.link with
  | none => none
  | some (title, href) =>
    let url := if isPref "item?id=".data href.data then hnBase ++ href else href
    match parsePoints it.scoreText with
    | none => none
    | some pts =>
      some [("title", .js title),
            ("url", .js url),
            ("points", .jn pts),
            ("comments", .jn (parseComments it.linkTexts)),
            ("author", .js (it.author.getD "Unknown")),
            ("source", .js "HackerNews"),
            ("scraped_at", .js now),
            ("description", .js ""),
            ("reactions", .jn 0),
            ("reading_time", .jn 0),
            ("tags", .jlist [])]

/-- HackerNewsScraper.scrape_frontpage: a top-level fetch failure is caught
and yields `[]`; otherwise at most max_articles entries are parsed, each
parse failure skipping only its own item. -/
def scrape_frontpage (now : String) (resp : Except String (List RawHNItem))
    (maxArticles : Nat) : List (List (String × JVal)) :=
  match resp with
  | .error _ => []
  | .ok items => (items.take maxArticles).filterMap (hnItemDict now)

/-- The fields the Dev.to adapter guarantees on every record. -/
def devtoFields : List String :=
  ["title", "description", "url", "published_at", "tags", "reactions",
   "comments", "reading_time", "author", "source", "fetched_at"]

/-- The fields the HackerNews adapter guarantees on every record. -/
def hnFields : List String :=
  ["title", "url", "points", "comments", "author", "source", "scraped_at",
   "description", "reactions", "reading_time", "tags"]

/-! ## Concrete instances used by counterexamples and witnesses -/

/-- An input record without a url key (defaults to "" at insertion). -/
def cxNoUrlA : InArticle := { title := some "A", source := some "S" }

/-- A second url-less record with a different title, same source. -/
def cxNoUrlB : InArticle := { title := some "B", source := some "S" }

/-- A well-formed record with a distinct url. -/
def exInA : InArticle :=
  { title := some "A", source := some "S", url := some "https://example.com/1" }

/-- A second well-formed record with a distinct url. -/
def exInB : InArticle :=
  { title := some "B", source := some "S", url := some "https://example.com/2" }

/-- A persisted example row. -/
def exArtHello : Article :=
  mkRow { title := some "Hello World", description := some "say hi",
          url := some "https://example.com/h" }

/-- A one-row store with an empty search history. -/
def dbOne : DB := { articles := [exArtHello], history := [] }

/-- An uncategorized pipeline record. -/
def exPipeRow : InArticle := { title := some "Docker rocks" }

/-- A Dev.to-style record carrying only a fetch timestamp. -/
def exFetched : InArticle :=
  { title := some "X", fetched_at := some "2024-01-01T00:00:00" }

/-! ## Helper lemmas about the sorting and substring machinery -/

theorem insBy_perm (le : α → α → Bool) (x : α) (l : List α) :
    (insBy le x l).Perm (x :: l) := by
  induction l with
  | nil => exact List.Perm.refl _
  | cons y ys ih =>
    cases h : le x y with
    | true =>
      simp only [insBy, h, if_true]
      exact (ih.cons y).trans (List.Perm.swap x y ys)
    | false =>
      simp [insBy, h]

theorem sortFold_perm (le : α → α → Bool) (l acc : List α) :
    (l.foldl (fun a x => insBy le x a) acc).Perm (l ++ acc) := by
  induction l generalizing acc with
  | nil => simp
  | cons x xs ih =>
    simp only [List.foldl_cons, List.cons_append]
    exact (ih (insBy le x acc)).trans
      (((insBy_perm le x acc).append_left xs).trans List.perm_middle)

theorem sortByDesc_perm (le : α → α → Bool) (l : List α) :
    (sortByDesc le l).Perm l := by
  simpa using sortFold_perm le l []

theorem insBy_pairwise (le : α → α → Bool)
    (total : ∀ a b, le a b = false → le b a = true)
    (tr : ∀ a b c, le a b = true → le b c = true → le a c = true)
    (x : α) (l : List α) (h : l.Pairwise (fun a b => le b a = true)) :
    (insBy le x l).Pairwise (fun a b => le b a = true) := by
  induction l with
  | nil => simp [insBy]
  | cons y ys ih =>
    rcases List.pairwise_cons.mp h with ⟨hy, hys⟩
    cases hxy : le x y with
    | true =>
      simp only [insBy, hxy, if_true]
      refine List.pairwise_cons.mpr ⟨?_, ih hys⟩
      intro z hz
      rcases List.mem_cons.mp (((insBy_perm le x ys).mem_iff).mp hz) with hzx | hzys
      · rw [hzx]; exact hxy
      · exact hy z hzys
    | false =>
      simp only [insBy, hxy, Bool.false_eq_true, if_false]
      refine List.pairwise_cons.mpr ⟨?_, h⟩
      intro z hz
      rcases List.mem_cons.mp hz with hzy | hzys
      · rw [hzy]; exact total x y hxy
      · exact tr z y x (hy z hzys) (total x y hxy)

theorem sortFold_pairwise (le : α → α → Bool)
    (total : ∀ a b, le a b = false → le b a = true)
    (tr : ∀ a b c, le a b = true → le b c = true → le a c = true)
    (l acc : List α) (hacc : acc.Pairwise (fun a b => le b a = true)) :
    (l.foldl (fun a x => insBy le x a) acc).Pairwise (fun a b => le b a = true) := by
  induction l generalizing acc with
  | nil => exact hacc
  | cons x xs ih =>
    exact ih (insBy le x acc) (insBy_pairwise le total tr x acc hacc)

theorem sortByDesc_pairwise (le : α → α → Bool)
    (total : ∀ a b, le a b = false → le b a = true)
    (tr : ∀ a b c, le a b = true → le b c = true → le a c = true)
    (l : List α) :
    (sortByDesc le l).Pairwise (fun a b => le b a = true) :=
  sortFold_pairwise le total tr l [] List.Pairwise.nil

theorem occursIn_nil (t : List Char) : occursIn [] t = true := by
  cases t <;> rfl

theorem optLe_total (a b : Option String) (h : optLe a b = false) : optLe b a = true := by
  cases a with
  | none => simp [optLe] at h
  | some s =>
    cases b with
    | none => rfl
    | some t =>
      simp only [optLe, decide_eq_false_iff_not] at h
      simpa [optLe] using le_of_not_le h

theorem optLe_trans (a b c : Option String) (hab : optLe a b = true)
    (hbc : optLe b c = true) : optLe a c = true := by
  cases a with
  | none => rfl
  | some s =>
    cases b with
    | none => simp [optLe] at hab
    | some t =>
      cases c with
      | none => simp [optLe] at hbc
      | some u =>
        simp only [optLe, decide_eq_true_eq] at hab hbc ⊢
        exact le_trans hab hbc

theorem sortByPubDesc_perm (l : List Article) : (sortByPubDesc l).Perm l :=
  sortByDesc_perm _ l

theorem sortByPubDesc_length (l : List Article) :
    (sortByPubDesc l).length = l.length :=
  (sortByPubDesc_perm l).length_eq

/-! ## C1: idempotent insertion -/

theorem conflictsWith_self (r : Article) : conflictsWith r r = true := by
  simp [conflictsWith]

/-- A run of inserts over fresh records (no key or url collision with the
already-present rows or each other) inserts every record. -/
theorem insert_run (pre arts : List InArticle)
    (hkey : ((pre ++ arts).map rowKey).Nodup)
    (hurl : ((pre ++ arts).map (fun a => (mkRow a).url)).Nodup) :
    insert_articles (pre.map mkRow) arts = ((pre ++ arts).map mkRow, arts.length) := by
  induction arts generalizing pre with
  | nil => simp [insert_articles]
  | cons a rest ih =>
    have hnoconf : (pre.map mkRow).any (fun s => conflictsWith (mkRow a) s) = false := by
      rw [List.any_eq_false]
      intro s hs
      rcases List.mem_map.mp hs with ⟨b, hb, rfl⟩
      intro hconf
      simp only [conflictsWith, Bool.or_eq_true, Bool.and_eq_true, beq_iff_eq] at hconf
      rw [List.map_append, List.nodup_append] at hkey hurl
      rcases hconf with ⟨ht, hsrc⟩ | hu
      · have hne : rowKey b ≠ rowKey a := by
          intro he
          exact hkey.2.2 (List.mem_map_of_mem rowKey hb)
            (he ▸ List.mem_map_of_mem rowKey (List.mem_cons_self a rest))
        exact hne (by simp [rowKey, ht, hsrc])
      · have hne : (mkRow b).url ≠ (mkRow a).url := by
          intro he
          exact hurl.2.2 (List.mem_map_of_mem _ hb)
            (he ▸ List.mem_map_of_mem _ (List.mem_cons_self a rest))
        exact hne hu.symm
    have hstep : insertOne (pre.map mkRow) a = ((pre ++ [a]).map mkRow, true) := by
      simp [insertOne, hnoconf]
    have hkey2 : (((pre ++ [a]) ++ rest).map rowKey).Nodup := by
      rw [List.append_assoc, List.singleton_append]; exact hkey
    have hurl2 : (((pre ++ [a]) ++ rest).map (fun a => (mkRow a).url)).Nodup := by
      rw [List.append_assoc, List.singleton_append]; exact hurl
    have := ih (pre ++ [a]) hkey2 hurl2
    rw [List.append_assoc, List.singleton_append] at this
    simp only [insert_articles, hstep, this]
    simp [List.length_cons, Nat.add_comm]

/-- When every record collides with an existing row, the whole batch is a
no-op reporting zero inserts. -/
theorem insert_all_conflict (store : List Article) (arts : List InArticle)
    (h : ∀ a ∈ arts, (store.any (fun s => conflictsWith (mkRow a) s)) = true) :
    insert_articles store arts = (store, 0) := by
  induction arts with
  | nil => rfl
  | cons a rest ih =>
    have ha := h a (List.mem_cons_self a rest)
    have hstep : insertOne store a = (store, false) := by
      simp [insertOne, ha]
    have hrest := ih (fun b hb => h b (List.mem_cons_of_mem a hb))
    simp [insert_articles, hstep, hrest]

/-- C1 (counterexample): two records with pairwise-distinct (title, source)
pairs but no url key both bind url = "", so the url UNIQUE constraint makes
the second insert a no-op — the first call into an empty store returns 1,
not the length 2 of the list. -/
theorem insert_idem_cex :
    (cxNoUrlA.title, cxNoUrlA.source) ≠ (cxNoUrlB.title, cxNoUrlB.source) ∧
    (insert_articles [] [cxNoUrlA, cxNoUrlB]).2 ≠ 2 := by
  constructor <;> decide

/-- C1 (amended): for every list of articles whose (title, source) pairs AND
whose bound url values are pairwise distinct, the first insert into an empty
store returns the length of the list and stores exactly the bound rows; a
second call with the same list is a no-op returning 0 that leaves the store
unchanged; and in every state, inserting a record whose (title, source) pair
is already present is a no-op, not an error. -/
theorem insert_articles_idempotent (arts : List InArticle)
    (hkey : (arts.map rowKey).Nodup)
    (hurl : (arts.map (fun a => (mkRow a).url)).Nodup) :
    (insert_articles [] arts).2 = arts.length ∧
    (insert_articles [] arts).1 = arts.map mkRow ∧
    insert_articles (arts.map mkRow) arts = (arts.map mkRow, 0) ∧
    (∀ (store : List Article) (a : InArticle),
      (∃ s ∈ store, s.title = (mkRow a).title ∧ s.source = (mkRow a).source) →
      insertOne store a = (store, false)) := by
  have h1 : insert_articles [] arts = (arts.map mkRow, arts.length) := by
    simpa using insert_run [] arts (by simpa using hkey) (by simpa using hurl)
  refine ⟨by rw [h1], by rw [h1], ?_, ?_⟩
  · refine insert_all_conflict _ _ (fun a ha => List.any_eq_true.mpr ?_)
    exact ⟨mkRow a, List.mem_map_of_mem mkRow ha, conflictsWith_self (mkRow a)⟩
  · rintro store a ⟨s, hs, ht, hsrc⟩
    have hany : store.any (fun s => conflictsWith (mkRow a) s) = true :=
      List.any_eq_true.mpr ⟨s, hs, by simp [conflictsWith, ht, hsrc]⟩
    simp [insertOne, hany]

/-- Witness for C1's amended theorem on two concrete records with distinct
keys and urls. -/
theorem insert_articles_idempotent_witness :
    (insert_articles [] [exInA, exInB]).2 = ([exInA, exInB] : List InArticle).length ∧
    insert_articles (([exInA, exInB] : List InArticle).map mkRow) [exInA, exInB]
      = (([exInA, exInB] : List InArticle).map mkRow, 0) :=
  ⟨(insert_articles_idempotent [exInA, exInB] (by decide) (by decide)).1,
   (insert_articles_idempotent [exInA, exInB] (by decide) (by decide)).2.2.1⟩

/-! ## C2 and C4: categorization -/

/-- Python max over a non-empty list splits it around the first element
attaining the maximum: everything before is strictly smaller, everything
after is no larger. -/
theorem firstMax_split (s : String × Nat) (ss : List (String × Nat)) :
    ∃ p1 p2, s :: ss = p1 ++ (firstMax s ss) :: p2 ∧
      (∀ q ∈ p1, q.2 < (firstMax s ss).2) ∧
      (∀ q ∈ p2, q.2 ≤ (firstMax s ss).2) := by
  induction ss generalizing s with
  | nil => exact ⟨[], [], rfl, by simp, by simp⟩
  | cons x xs ih =>
    have hstep : firstMax s (x :: xs) = firstMax (if s.2 < x.2 then x else s) xs := rfl
    by_cases hc : s.2 < x.2
    · rcases ih x with ⟨p1, p2, heq, hlt, hle⟩
      have hx : x.2 ≤ (firstMax x xs).2 := by
        cases p1 with
        | nil =>
          have : x = firstMax x xs := by simpa using congrArg (fun l => l.head?) heq
          rw [← this]
        | cons y ys =>
          have hxy : x = y := by simpa using congrArg (fun l => l.head?) heq
          exact le_of_lt (hxy ▸ hlt y (List.mem_cons_self y ys))
      refine ⟨s :: p1, p2, ?_, ?_, ?_⟩
      · rw [hstep, if_pos hc, List.cons_append, ← heq]
      · intro q hq
        rcases List.mem_cons.mp hq with h1 | h2
        · rw [h1, hstep, if_pos hc]; exact lt_of_lt_of_le hc hx
        · rw [hstep, if_pos hc]; exact hlt q h2
      · intro q hq
        rw [hstep, if_pos hc]; exact hle q hq
    · rcases ih s with ⟨p1, p2, heq, hlt, hle⟩
      cases p1 with
      | nil =>
        have hs : s = firstMax s xs := by simpa using congrArg (fun l => l.head?) heq
        have hp2 : xs = p2 := by simpa using congrArg (fun l => l.tail) heq
        refine ⟨[], x :: xs, ?_, by simp, ?_⟩
        · rw [hstep, if_neg hc, ← hs]; simp
        · intro q hq
          rw [hstep, if_neg hc, ← hs]
          rcases List.mem_cons.mp hq with h1 | h2
          · rw [h1]; exact le_of_not_lt hc
          · have := hle q (hp2 ▸ h2)
            rw [← hs] at this
            exact this
      | cons y ys =>
        have hsy : s = y := by simpa using congrArg (fun l => l.head?) heq
        have hxs : xs = ys ++ (firstMax s xs) :: p2 := by
          simpa using congrArg (fun l => l.tail) heq
        refine ⟨s :: x :: ys, p2, ?_, ?_, ?_⟩
        · rw [hstep, if_neg hc, List.cons_append, List.cons_append, ← hxs]
        · intro q hq
          rw [hstep, if_neg hc]
          have hslt : s.2 < (firstMax s xs).2 := hsy ▸ hlt y (List.mem_cons_self y ys)
          rcases List.mem_cons.mp hq with h1 | h2
          · rw [h1]; exact hslt
          · rcases List.mem_cons.mp h2 with h3 | h4
            · rw [h3]; exact lt_of_le_of_lt (le_of_not_lt hc) hslt
            · exact hlt q (List.mem_cons_of_mem y h4)
        · intro q hq
          rw [hstep, if_neg hc]; exact hle q hq

/-- A decomposition of a filtered list lifts to a decomposition of the
original list. -/
theorem filter_split {α : Type} (p : α → Bool) :
    ∀ (l A : List α) (r : α) (B : List α), l.filter p = A ++ r :: B →
    ∃ l1 l2, l = l1 ++ r :: l2 ∧ l1.filter p = A ∧ l2.filter p = B := by
  intro l
  induction l with
  | nil =>
    intro A r B h
    exact absurd (h ▸ (List.append_ne_nil_of_right_ne_nil A (List.cons_ne_nil r B))) (by simp)
  | cons x xs ih =>
    intro A r B h
    by_cases hp : p x
    · rw [List.filter_cons_of_pos hp] at h
      cases A with
      | nil =>
        have hx : x = r := by simpa using congrArg (fun l => l.head?) h
        have hB : xs.filter p = B := by simpa using congrArg (fun l => l.tail) h
        exact ⟨[], xs, by simp [hx], by simp, hB⟩
      | cons a A2 =>
        have hxa : x = a := by simpa using congrArg (fun l => l.head?) h
        have h2 : xs.filter p = A2 ++ r :: B := by
          simpa using congrArg (fun l => l.tail) h
        rcases ih A2 r B h2 with ⟨l1, l2, he, hf1, hf2⟩
        exact ⟨x :: l1, l2, by simp [he], by rw [List.filter_cons_of_pos hp, hf1, hxa], hf2⟩
    · rw [List.filter_cons_of_neg hp] at h
      rcases ih A r B h with ⟨l1, l2, he, hf1, hf2⟩
      exact ⟨x :: l1, l2, by simp [he], by rw [List.filter_cons_of_neg hp, hf1], hf2⟩

/-- A decomposition of a mapped list lifts to a decomposition of the
original list. -/
theorem map_split {α β : Type} (f : α → β) :
    ∀ (l : List α) (A : List β) (r : β) (B : List β), l.map f = A ++ r :: B →
    ∃ l1 q l2, l = l1 ++ q :: l2 ∧ f q = r ∧ l1.map f = A ∧ l2.map f = B := by
  intro l
  induction l with
  | nil =>
    intro A r B h
    exact absurd (h ▸ (List.append_ne_nil_of_right_ne_nil A (List.cons_ne_nil r B))) (by simp)
  | cons x xs ih =>
    intro A r B h
    cases A with
    | nil =>
      have hx : f x = r := by simpa using congrArg (fun l => l.head?) h
      have hB : xs.map f = B := by simpa using congrArg (fun l => l.tail) h
      exact ⟨[], x, xs, rfl, hx, rfl, hB⟩
    | cons a A2 =>
      have hxa : f x = a := by simpa using congrArg (fun l => l.head?) h
      have h2 : xs.map f = A2 ++ r :: B := by simpa using congrArg (fun l => l.tail) h
      rcases ih A2 r B h2 with ⟨l1, q, l2, he, hfq, hf1, hf2⟩
      exact ⟨x :: l1, q, l2, by simp [he], hfq, by rw [List.map_cons, hf1, hxa], hf2⟩

/-- C2: categorize_by_keywords assigns, for every title and keyword-group
mapping, the category whose keyword phrases achieve the highest count of
literal substring hits in the lower-cased title; on ties the first group in
the mapping's iteration order wins (everything before the winner scores
strictly less, everything after no more); a title with zero keyword hits is
assigned exactly "Other".  As a Lean function of (title, keywordGroups) the
assignment is deterministic and pure by construction. -/
theorem find_cat_spec (title : String) (kd : List (String × List String)) :
    ((∀ p ∈ kd, catScore (lowerData title) p.2 = 0) ∧ find_cat title kd = "Other")
    ∨ (∃ pre c kws post,
        kd = pre ++ (c, kws) :: post ∧
        find_cat title kd = c ∧
        0 < catScore (lowerData title) kws ∧
        (∀ q ∈ pre, catScore (lowerData title) q.2 < catScore (lowerData title) kws) ∧
        (∀ q ∈ post, catScore (lowerData title) q.2 ≤ catScore (lowerData title) kws)) := by
  have hfind : find_cat title kd =
      (match (kd.map (fun p => (p.1, catScore (lowerData title) p.2))).filter
          (fun p => decide (0 < p.2)) with
        | [] => "Other"
        | s :: ss => (firstMax s ss).1) := rfl
  cases hsc : (kd.map (fun p => (p.1, catScore (lowerData title) p.2))).filter
      (fun p => decide (0 < p.2)) with
  | nil =>
    left
    constructor
    · intro p hp
      by_contra hne
      have hg : (fun p : String × Nat => decide (0 < p.2)) (p.1, catScore (lowerData title) p.2)
          = true := by
        simp only [decide_eq_true_eq]
        omega
      have hmem : (p.1, catScore (lowerData title) p.2) ∈
          (kd.map (fun p => (p.1, catScore (lowerData title) p.2))).filter
            (fun p => decide (0 < p.2)) :=
        List.mem_filter.mpr ⟨List.mem_map_of_mem _ hp, hg⟩
      rw [hsc] at hmem
      exact absurd hmem (List.not_mem_nil _)
    · rw [hfind, hsc]
  | cons s ss =>
    right
    obtain ⟨p1, p2, heq, hlt, hle⟩ := firstMax_split s ss
    have hfg : (kd.map (fun p => (p.1, catScore (lowerData title) p.2))).filter
        (fun p => decide (0 < p.2)) = p1 ++ (firstMax s ss) :: p2 := by
      rw [hsc]; exact heq
    obtain ⟨m1, m2, hmeq, hm1, hm2⟩ :=
      filter_split (fun p : String × Nat => decide (0 < p.2)) _ p1 (firstMax s ss) p2 hfg
    obtain ⟨l1, q, l2, hleq, hfq, hl1, hl2⟩ :=
      map_split (fun p : String × List String => (p.1, catScore (lowerData title) p.2))
        kd m1 (firstMax s ss) m2 hmeq
    have hpos : 0 < (firstMax s ss).2 := by
      have hmem : firstMax s ss ∈
          (kd.map (fun p => (p.1, catScore (lowerData title) p.2))).filter
            (fun p => decide (0 < p.2)) := by
        rw [hfg]
        exact List.mem_append_right p1 (List.mem_cons_self _ _)
      have := (List.mem_filter.mp hmem).2
      simpa using this
    have hq2 : catScore (lowerData title) q.2 = (firstMax s ss).2 := by
      rw [← hfq]
    refine ⟨l1, q.1, q.2, l2, ?_, ?_, ?_, ?_, ?_⟩
    · exact hleq
    · rw [hfind, hsc]
      show (firstMax s ss).1 = q.1
      rw [← hfq]
    · rw [hq2]; exact hpos
    · intro q' hq'
      have hin : (q'.1, catScore (lowerData title) q'.2) ∈ m1 := by
        rw [← hl1]
        exact List.mem_map_of_mem _ hq'
      by_cases hg : (0 : Nat) < catScore (lowerData title) q'.2
      · have : (q'.1, catScore (lowerData title) q'.2) ∈ p1 := by
          rw [← hm1]
          exact List.mem_filter.mpr ⟨hin, by simpa using hg⟩
        have := hlt _ this
        rw [hq2]; simpa using this
      · rw [hq2]
        omega
    · intro q' hq'
      have hin : (q'.1, catScore (lowerData title) q'.2) ∈ m2 := by
        rw [← hl2]
        exact List.mem_map_of_mem _ hq'
      by_cases hg : (0 : Nat) < catScore (lowerData title) q'.2
      · have : (q'.1, catScore (lowerData title) q'.2) ∈ p2 := by
          rw [← hm2]
          exact List.mem_filter.mpr ⟨hin, by simpa using hg⟩
        have := hle _ this
        rw [hq2]; simpa using this
      · rw [hq2]
        omega

/-- The argmax of a non-empty list is one of its elements. -/
theorem firstMax_mem (s : String × Nat) (ss : List (String × Nat)) :
    firstMax s ss ∈ s :: ss := by
  induction ss generalizing s with
  | nil => exact List.mem_cons_self s []
  | cons x xs ih =>
    have hstep : firstMax s (x :: xs) = firstMax (if s.2 < x.2 then x else s) xs := rfl
    rw [hstep]
    rcases List.mem_cons.mp (ih (if s.2 < x.2 then x else s)) with h1 | h2
    · rw [h1]
      by_cases hc : s.2 < x.2
      · rw [if_pos hc]
        exact List.mem_cons_of_mem s (List.mem_cons_self x xs)
      · rw [if_neg hc]
        exact List.mem_cons_self s (x :: xs)
    · exact List.mem_cons_of_mem s (List.mem_cons_of_mem x h2)

/-- find_cat only ever returns "Other" or one of the configured group
names. -/
theorem find_cat_mem (title : String) (kd : List (String × List String)) :
    find_cat title kd = "Other" ∨ find_cat title kd ∈ kd.map Prod.fst := by
  have hfind : find_cat title kd =
      (match (kd.map (fun p => (p.1, catScore (lowerData title) p.2))).filter
          (fun p => decide (0 < p.2)) with
        | [] => "Other"
        | s :: ss => (firstMax s ss).1) := rfl
  cases hsc : (kd.map (fun p => (p.1, catScore (lowerData title) p.2))).filter
      (fun p => decide (0 < p.2)) with
  | nil => left; rw [hfind, hsc]
  | cons s ss =>
    right
    have hmem : firstMax s ss ∈
        (kd.map (fun p => (p.1, catScore (lowerData title) p.2))).filter
          (fun p => decide (0 < p.2)) := by
      rw [hsc]; exact firstMax_mem s ss
    have hmap := List.mem_of_mem_filter hmem
    rcases List.mem_map.mp hmap with ⟨p, hp, hfp⟩
    rw [hfind, hsc]
    show (firstMax s ss).1 ∈ List.map Prod.fst kd
    rw [← hfp]
    exact List.mem_map_of_mem Prod.fst hp

/-- Every row appearing after a batch insert was either already present or
is the bound image of one of the input records. -/
theorem insert_articles_shape (store : List Article) (arts : List InArticle) :
    ∀ r ∈ (insert_articles store arts).1, r ∈ store ∨ ∃ a ∈ arts, r = mkRow a := by
  induction arts generalizing store with
  | nil => intro r hr; exact Or.inl hr
  | cons a rest ih =>
    intro r hr
    by_cases hc : store.any (fun s => conflictsWith (mkRow a) s) = true
    · have hstep : insertOne store a = (store, false) := by simp [insertOne, hc]
      have hr2 : r ∈ (insert_articles store rest).1 := by
        simpa [insert_articles, hstep] using hr
      rcases ih store r hr2 with h | ⟨b, hb, hre⟩
      · exact Or.inl h
      · exact Or.inr ⟨b, List.mem_cons_of_mem a hb, hre⟩
    · have hstep : insertOne store a = (store ++ [mkRow a], true) := by
        simp [insertOne] at hc ⊢
        intro s hs
        exact hc s hs
      have hr2 : r ∈ (insert_articles (store ++ [mkRow a]) rest).1 := by
        simpa [insert_articles, hstep] using hr
      rcases ih (store ++ [mkRow a]) r hr2 with h | ⟨b, hb, hre⟩
      · rcases List.mem_append.mp h with h1 | h2
        · exact Or.inl h1
        · exact Or.inr ⟨a, List.mem_cons_self a rest, by simpa using h2⟩
      · exact Or.inr ⟨b, List.mem_cons_of_mem a hb, hre⟩

/-- C4: every record persisted by the categorize-then-insert pipeline
carries a category that is exactly one of the configured keyword-group
names of TECH_KEYWORDS or the literal fallback "Other", and is never the
empty string (it is a single string value by construction). -/
theorem category_persisted (store : List Article) (rows : List InArticle) :
    ∀ r ∈ (categorizeAndInsert store TECH_KEYWORDS rows).1,
      r ∈ store ∨
      ((r.category ∈ TECH_KEYWORDS.map Prod.fst ∨ r.category = "Other") ∧
        r.category ≠ "") := by
  intro r hr
  rcases insert_articles_shape store (rows.map (categorizeRow TECH_KEYWORDS)) r hr
    with h | ⟨a', ha', hre⟩
  · exact Or.inl h
  · rcases List.mem_map.mp ha' with ⟨a, _, hfa⟩
    right
    have hcat : r.category = find_cat (a.title.getD "") TECH_KEYWORDS := by
      rw [hre, ← hfa]
      rfl
    rw [hcat]
    rcases find_cat_mem (a.title.getD "") TECH_KEYWORDS with h1 | h2
    · rw [h1]
      exact ⟨Or.inr rfl, by decide⟩
    · refine ⟨Or.inl h2, ?_⟩
      have hne : ∀ n ∈ TECH_KEYWORDS.map Prod.fst, n ≠ "" := by decide
      exact hne _ h2

/-- Witness for C4 at a concrete pipeline run over an empty store. -/
theorem category_persisted_witness :
    mkRow (categorizeRow TECH_KEYWORDS exPipeRow) ∈ ([] : List Article) ∨
    (((mkRow (categorizeRow TECH_KEYWORDS exPipeRow)).category
        ∈ TECH_KEYWORDS.map Prod.fst ∨
      (mkRow (categorizeRow TECH_KEYWORDS exPipeRow)).category = "Other") ∧
     (mkRow (categorizeRow TECH_KEYWORDS exPipeRow)).category ≠ "") :=
  category_persisted [] [exPipeRow] (mkRow (categorizeRow TECH_KEYWORDS exPipeRow))
    (by decide)

/-! ## C3: numeric-field normalization -/

/-- C3 (counterexample): the claim that normalized numeric fields are always
non-negative is false — `to_numeric(...).fillna(0).astype(int)` performs no
clamping, so a negative raw value (here points = -5) survives normalization,
and insert_articles persists it unchanged. -/
theorem numeric_nonneg_cex :
    ¬ (0 ≤ coerceNum (RawNum.rint (-5))) ∧
    ¬ (0 ≤ (mkRow { title := some "T", points := some (-5) }).points) := by
  constructor <;> decide

/-- C3 (amended): normalization coerces the numeric fields to integers with
absent and unparseable values becoming 0, and it preserves any non-negative
raw value unchanged (non-negativity of the output therefore holds exactly
when the raw inputs are non-negative; no clamping is applied). -/
theorem coerceNum_spec (s : String) (z : Int) (h : 0 ≤ z) :
    coerceNum RawNum.rna = 0 ∧
    (to_numeric (RawNum.rstr s) = none → coerceNum (RawNum.rstr s) = 0) ∧
    coerceNum (RawNum.rint z) = z ∧
    0 ≤ coerceNum (RawNum.rint z) := by
  refine ⟨rfl, ?_, rfl, h⟩
  intro h2
  simp [coerceNum, h2]

/-- Witness for C3's amended theorem at s = "abc", z = 5. -/
theorem coerceNum_spec_witness :
    coerceNum RawNum.rna = 0 ∧
    (to_numeric (RawNum.rstr "abc") = none → coerceNum (RawNum.rstr "abc") = 0) ∧
    coerceNum (RawNum.rint 5) = 5 ∧
    0 ≤ coerceNum (RawNum.rint 5) :=
  coerceNum_spec "abc" 5 (by decide)

/-! ## C10: published_at falls back to fetched_at -/

/-- C10: when a record's published_at is absent or empty (the falsy string
values), insert_articles persists the date-normalized fetched_at value in
the published_at column; only when fetched_at is also absent is the stored
value NULL, and a well-formed fetched_at timestamp is stored verbatim. -/
theorem published_at_fallback (a : InArticle)
    (h : a.published_at = none ∨ a.published_at = some "") :
    (mkRow a).published_at = to_str_date a.fetched_at ∧
    (a.fetched_at = none → (mkRow a).published_at = none) ∧
    (∀ s, a.fetched_at = some s → s ≠ "NaT" → s ≠ "nan" →
      (mkRow a).published_at = some s) := by
  have hp : pubRaw a = a.fetched_at := by
    rcases h with h | h <;> simp [pubRaw, h]
  refine ⟨by simp [mkRow, hp], ?_, ?_⟩
  · intro hf
    simp [mkRow, hp, hf, to_str_date]
  · intro s hf h1 h2
    simp [mkRow, hp, hf, to_str_date, h1, h2]

/-- Witness for C10 at a record carrying only a fetch timestamp. -/
theorem published_at_fallback_witness :
    (mkRow exFetched).published_at = to_str_date exFetched.fetched_at ∧
    (exFetched.fetched_at = none → (mkRow exFetched).published_at = none) ∧
    (∀ s, exFetched.fetched_at = some s → s ≠ "NaT" → s ≠ "nan" →
      (mkRow exFetched).published_at = some s) :=
  published_at_fallback exFetched (Or.inl rfl)

/-! ## C8: keyword extraction -/

theorem firstOccs_subset : ∀ (l : List String) (w : String), w ∈ firstOccs l → w ∈ l := by
  intro l
  induction l with
  | nil => intro w hw; simp [firstOccs] at hw
  | cons x xs ih =>
    intro w hw
    rcases List.mem_cons.mp hw with h1 | h2
    · rw [h1]; exact List.mem_cons_self x xs
    · exact List.mem_cons_of_mem x (ih w (List.mem_of_mem_filter h2))

theorem firstOccs_nodup : ∀ (l : List String), (firstOccs l).Nodup := by
  intro l
  induction l with
  | nil => simp [firstOccs]
  | cons x xs ih =>
    refine List.nodup_cons.mpr ⟨?_, ih.filter _⟩
    intro hx
    have := (List.mem_filter.mp hx).2
    simp at this

/-- The term sequence of the counter items is the first-occurrence list. -/
theorem counterItems_fst (t : String) :
    (counterItems t).map Prod.fst = firstOccs (filteredWords t) := by
  have h : ∀ (l : List String) (c : String → Nat),
      (l.map (fun w => (w, c w))).map Prod.fst = l := by
    intro l c
    induction l with
    | nil => rfl
    | cons x xs ih => simp [ih]
  exact h _ _

/-- Membership facts for a counter item. -/
theorem counterItems_mem (t : String) (p : String × Nat) (hp : p ∈ counterItems t) :
    p.1 ∈ filteredWords t ∧ p.2 = (filteredWords t).count p.1 := by
  rcases List.mem_map.mp hp with ⟨w, hw, hwe⟩
  rw [← hwe]
  exact ⟨firstOccs_subset _ w hw, rfl⟩

/-- Every filtered word avoids the stop-word list and is longer than 3. -/
theorem filteredWords_mem (t : String) (w : String) (h : w ∈ filteredWords t) :
    w ∉ stopWords ∧ 3 < w.length := by
  have hc := (List.mem_filter.mp h).2
  simp only [Bool.and_eq_true, Bool.not_eq_true', decide_eq_true_eq] at hc
  refine ⟨?_, hc.2⟩
  intro hmem
  have : stopWords.contains w = true := List.elem_eq_true_of_mem hmem
  rw [this] at hc
  exact absurd hc.1 (by simp)

/-- The count order is total. -/
theorem countLe_total (a b : String × Nat)
    (h : (decide (a.2 ≤ b.2) : Bool) = false) : (decide (b.2 ≤ a.2) : Bool) = true := by
  simp at h ⊢
  omega

/-- The count order is transitive. -/
theorem countLe_trans (a b c : String × Nat)
    (hab : (decide (a.2 ≤ b.2) : Bool) = true)
    (hbc : (decide (b.2 ≤ c.2) : Bool) = true) : (decide (a.2 ≤ c.2) : Bool) = true := by
  simp at hab hbc ⊢
  omega

/-- Inserting into a count-descending list places the new element after
every earlier element of its own count class: the count-c subsequence
either gains x at its end (when x counts c) or is unchanged. -/
theorem insBy_filter_count (c : Nat) (x : String × Nat) :
    ∀ (l : List (String × Nat)),
      l.Pairwise (fun a b => (decide (b.2 ≤ a.2) : Bool) = true) →
      (insBy (fun u v => decide (u.2 ≤ v.2)) x l).filter (fun p => decide (p.2 = c))
        = if x.2 = c
          then l.filter (fun p => decide (p.2 = c)) ++ [x]
          else l.filter (fun p => decide (p.2 = c)) := by
  intro l
  induction l with
  | nil =>
    intro _
    by_cases hx : x.2 = c <;> simp [insBy, hx]
  | cons y ys ih =>
    intro hl
    rcases List.pairwise_cons.mp hl with ⟨hy, hys⟩
    by_cases hxy : x.2 ≤ y.2
    · have hstep : insBy (fun u v => decide (u.2 ≤ v.2)) x (y :: ys)
          = y :: insBy (fun u v => decide (u.2 ≤ v.2)) x ys := by
        simp [insBy, hxy]
      rw [hstep, List.filter_cons, List.filter_cons, ih hys]
      by_cases hx : x.2 = c <;> by_cases hyc : y.2 = c <;> simp [hx, hyc]
    · have hstep : insBy (fun u v => decide (u.2 ≤ v.2)) x (y :: ys) = x :: y :: ys := by
        simp [insBy]
        omega
      rw [hstep]
      by_cases hx : x.2 = c
      · have hnil : (y :: ys).filter (fun p => decide (p.2 = c)) = [] := by
          rw [List.filter_eq_nil_iff]
          intro p hp
          have hpy : p.2 ≤ y.2 := by
            rcases List.mem_cons.mp hp with h1 | h2
            · rw [h1]
            · simpa using hy p h2
          simp
          omega
        rw [List.filter_cons, hnil]
        simp [hx]
      · rw [List.filter_cons]
        simp [hx]

/-- Folding the stable insertion over fresh input appends each count class
in input order: the sort is stable per count class. -/
theorem sortFold_filter (c : Nat) :
    ∀ (l acc : List (String × Nat)),
      acc.Pairwise (fun a b => (decide (b.2 ≤ a.2) : Bool) = true) →
      ((l.foldl (fun a x => insBy (fun u v => decide (u.2 ≤ v.2)) x a) acc).filter
          (fun p => decide (p.2 = c)))
        = acc.filter (fun p => decide (p.2 = c)) ++ l.filter (fun p => decide (p.2 = c)) := by
  intro l
  induction l with
  | nil => intro acc _; simp
  | cons x xs ih =>
    intro acc hacc
    have hsorted := insBy_pairwise (fun u v : String × Nat => decide (u.2 ≤ v.2))
      countLe_total countLe_trans x acc hacc
    rw [List.foldl_cons, ih _ hsorted, insBy_filter_count c x acc hacc, List.filter_cons]
    by_cases hx : x.2 = c <;> simp [hx]

/-- The stable descending sort leaves every count class in its original
(first-encountered) order. -/
theorem sortCountDesc_filter (items : List (String × Nat)) (c : Nat) :
    (sortCountDesc items).filter (fun p => decide (p.2 = c))
      = items.filter (fun p => decide (p.2 = c)) := by
  have h := sortFold_filter c items [] List.Pairwise.nil
  simpa [sortCountDesc, sortByDesc] using h

/-- Filtering a prefix yields a prefix of the filtered list. -/
theorem filter_take_front {α : Type} (p : α → Bool) :
    ∀ (l : List α) (n : Nat), ∃ k, (l.take n).filter p = (l.filter p).take k := by
  intro l
  induction l with
  | nil => intro n; exact ⟨0, by simp⟩
  | cons x xs ih =>
    intro n
    cases n with
    | zero => exact ⟨0, by simp⟩
    | succ m =>
      rcases ih m with ⟨k, hk⟩
      by_cases hp : p x
      · exact ⟨k + 1, by simp [List.filter_cons, hp, hk]⟩
      · exact ⟨k, by simp [List.filter_cons, hp, hk]⟩

/-- Every word of a list appears among its first occurrences. -/
theorem mem_firstOccs : ∀ (l : List String) (w : String), w ∈ l → w ∈ firstOccs l := by
  intro l
  induction l with
  | nil => intro w hw; simp at hw
  | cons x xs ih =>
    intro w hw
    show w ∈ x :: (firstOccs xs).filter (fun z => z != x)
    rcases List.mem_cons.mp hw with h1 | h2
    · rw [h1]; exact List.mem_cons_self x _
    · by_cases hwx : w = x
      · rw [hwx]; exact List.mem_cons_self x _
      · refine List.mem_cons_of_mem x (List.mem_filter.mpr ⟨ih w h2, ?_⟩)
        simp [hwx]

/-- C8: extractKeywords of the empty text is the empty list; otherwise it
returns exactly the topN most frequent filtered terms as (term, count)
pairs: at most topN of them (exactly min(topN, number of distinct terms)),
in descending count order, with pairwise-distinct terms, every term a
surviving token (not a stop-word, length > 3) counted by its true frequency,
no omitted filtered term outranking any returned pair, all distinct terms
returned when there are at most topN of them, and every count class listed
as an initial segment of its first-encountered order (the stable
tie-break). -/
theorem extract_keywords_spec (t : String) (n : Nat) :
    extract_keywords "" n = [] ∧
    (extract_keywords t n).length ≤ n ∧
    (extract_keywords t n).Pairwise (fun a b => b.2 ≤ a.2) ∧
    ((extract_keywords t n).map Prod.fst).Nodup ∧
    (∀ p ∈ extract_keywords t n,
      p.1 ∉ stopWords ∧ 3 < p.1.length ∧ p.2 = (filteredWords t).count p.1) ∧
    (extract_keywords t n).length = min n (counterItems t).length ∧
    (∀ w ∈ filteredWords t, w ∉ (extract_keywords t n).map Prod.fst →
      ∀ p ∈ extract_keywords t n, (filteredWords t).count w ≤ p.2) ∧
    ((counterItems t).length ≤ n → (extract_keywords t n).Perm (counterItems t)) ∧
    (∀ c : Nat, ∃ k, (extract_keywords t n).filter (fun p => decide (p.2 = c))
      = ((counterItems t).filter (fun p => decide (p.2 = c))).take k) := by
  by_cases ht : t = ""
  · subst ht
    have hci : counterItems "" = [] := rfl
    have hfw : filteredWords "" = [] := rfl
    refine ⟨rfl, ?_, ?_, ?_, ?_, ?_, ?_, ?_, ?_⟩ <;>
      simp [extract_keywords, hci, hfw]
  · have he : extract_keywords t n = (sortCountDesc (counterItems t)).take n := by
      simp [extract_keywords, ht, mostCommon]
    have hperm : (sortCountDesc (counterItems t)).Perm (counterItems t) :=
      sortByDesc_perm _ _
    have hpair : (sortCountDesc (counterItems t)).Pairwise
        (fun a b : String × Nat => (decide (b.2 ≤ a.2) : Bool) = true) :=
      sortByDesc_pairwise (fun x y : String × Nat => decide (x.2 ≤ y.2))
        countLe_total countLe_trans (counterItems t)
    refine ⟨rfl, ?_, ?_, ?_, ?_, ?_, ?_, ?_, ?_⟩
    · rw [he]; exact List.length_take_le n _
    · rw [he]
      have := hpair.sublist (List.take_sublist n _)
      exact this.imp (fun h => by simpa using h)
    · rw [he]
      have hnd : ((counterItems t).map Prod.fst).Nodup := by
        rw [counterItems_fst]; exact firstOccs_nodup _
      have hnd2 : ((sortCountDesc (counterItems t)).map Prod.fst).Nodup :=
        ((hperm.map Prod.fst).nodup_iff).mpr hnd
      exact List.Nodup.sublist ((List.take_sublist n _).map Prod.fst) hnd2
    · intro p hp
      rw [he] at hp
      have hp2 : p ∈ counterItems t :=
        hperm.mem_iff.mp (List.take_subset n _ hp)
      rcases counterItems_mem t p hp2 with ⟨h1, h2⟩
      rcases filteredWords_mem t p.1 h1 with ⟨h3, h4⟩
      exact ⟨h3, h4, h2⟩
    · rw [he, List.length_take, hperm.length_eq]
    · intro w hwf hwnot p hp
      have hq : (w, (filteredWords t).count w) ∈ counterItems t :=
        List.mem_map_of_mem _ (mem_firstOccs _ w hwf)
      have hqS : (w, (filteredWords t).count w) ∈ sortCountDesc (counterItems t) :=
        hperm.mem_iff.mpr hq
      have hqnot : (w, (filteredWords t).count w) ∉ (sortCountDesc (counterItems t)).take n := by
        intro hmem
        refine hwnot ?_
        rw [he]
        exact List.mem_map_of_mem Prod.fst hmem
      have hqdrop : (w, (filteredWords t).count w) ∈ (sortCountDesc (counterItems t)).drop n := by
        rw [← List.take_append_drop n (sortCountDesc (counterItems t))] at hqS
        rcases List.mem_append.mp hqS with h | h
        · exact absurd h hqnot
        · exact h
      have hpair2 := hpair
      rw [← List.take_append_drop n (sortCountDesc (counterItems t))] at hpair2
      have hcross := (List.pairwise_append.mp hpair2).2.2
      have hres := hcross p (by rw [he] at hp; exact hp) _ hqdrop
      simpa using hres
    · intro hlen
      rw [he]
      have hSlen : (counterItems t).length ≤ n → (sortCountDesc (counterItems t)).length ≤ n := by
        rw [hperm.length_eq]; exact fun h => h
      rw [List.take_of_length_le (hSlen hlen)]
      exact hperm
    · intro c
      rcases filter_take_front (fun p : String × Nat => decide (p.2 = c))
        (sortCountDesc (counterItems t)) n with ⟨k, hk⟩
      refine ⟨k, ?_⟩
      rw [he, hk, sortCountDesc_filter]

/-! ## C5: search history append -/

/-- One search appends exactly its own history row and leaves the articles
table unchanged. -/
theorem search_step (d : DB) (q : String) :
    (search_articles d q).2.history
      = d.history ++ [(q, (d.articles.filter (matchesKw q)).length)] ∧
    (search_articles d q).2.articles = d.articles := by
  constructor
  · show d.history ++ [(q, (sortByPubDesc (d.articles.filter (matchesKw q))).length)] = _
    rw [sortByPubDesc_length]
  · rfl

/-- C5: every call to search_articles appends exactly one record to the
search-history log, holding the literal query text and the number of rows
matched at call time (even when zero); N calls append exactly N rows, and
the articles table is untouched. -/
theorem search_history_spec (db : DB) (qs : List String) :
    (searchMany db qs).history
      = db.history ++ qs.map (fun q => (q, (db.articles.filter (matchesKw q)).length)) ∧
    (searchMany db qs).history.length = db.history.length + qs.length ∧
    (searchMany db qs).articles = db.articles := by
  have main : ∀ (d : DB) (qs : List String),
      (searchMany d qs).history
        = d.history ++ qs.map (fun q => (q, (d.articles.filter (matchesKw q)).length)) ∧
      (searchMany d qs).articles = d.articles := by
    intro d qs
    induction qs generalizing d with
    | nil => exact ⟨by simp [searchMany], rfl⟩
    | cons q rest ih =>
      rcases search_step d q with ⟨h1, h2⟩
      rcases ih (search_articles d q).2 with ⟨ih1, ih2⟩
      constructor
      · show (searchMany (search_articles d q).2 rest).history = _
        rw [ih1, h1, h2]
        simp
      · show (searchMany (search_articles d q).2 rest).articles = _
        rw [ih2, h2]
  rcases main db qs with ⟨h1, h2⟩
  refine ⟨h1, ?_, h2⟩
  rw [h1]
  simp

/-! ## C6: malformed query input -/

/-- C6 (counterexample): searching with the empty keyword does not return an
empty result — the query becomes LIKE '%%', which matches every row, so on a
one-row store the result is non-empty. -/
theorem search_empty_cex : (search_articles dbOne "").1 ≠ [] := by decide

/-- An empty keyword matches every row. -/
theorem matchesKw_empty (r : Article) : matchesKw "" r = true := by
  have h : lowerData "" = [] := rfl
  simp [matchesKw, h, occursIn_nil]

/-- C6 (amended): search_articles with the empty keyword returns all rows of
the store (LIKE '%%' matches everything) rather than none, and
get_top_articles with a metric name that is not a column of the table
returns an empty result; neither operation raises. -/
theorem malformed_query_spec (db : DB) (df : List Article) (metric : String)
    (n : Nat) (h : metric ∉ articleCols) :
    ((search_articles db "").1).Perm db.articles ∧
    (search_articles db "").1.length = db.articles.length ∧
    get_top_articles df metric n = [] := by
  have hfilter : db.articles.filter (matchesKw "") = db.articles :=
    List.filter_eq_self.mpr (fun a _ => matchesKw_empty a)
  have hres : (search_articles db "").1 = sortByPubDesc db.articles := by
    show sortByPubDesc (db.articles.filter (matchesKw "")) = _
    rw [hfilter]
  refine ⟨?_, ?_, ?_⟩
  · rw [hres]; exact sortByPubDesc_perm db.articles
  · rw [hres]; exact sortByPubDesc_length db.articles
  · simp [get_top_articles, h]

/-- Witness for C6's amended theorem: one-row store, unknown metric. -/
theorem malformed_query_witness :
    ((search_articles dbOne "").1).Perm dbOne.articles ∧
    (search_articles dbOne "").1.length = dbOne.articles.length ∧
    get_top_articles dbOne.articles "frobnicate" 5 = [] :=
  malformed_query_spec dbOne dbOne.articles "frobnicate" 5 (by decide)

/-! ## C7: get_all_articles ordering and limit -/

/-- C7 (counterexample): a provided limit of 0 is falsy in Python, so the
LIMIT clause is dropped and all rows are returned — more than 0 of them on a
non-empty store. -/
theorem get_all_limit_zero_cex :
    ¬ ((get_all_articles dbOne (some 0)).length ≤ 0) := by decide

/-- The descending published_at comparison used below. -/
theorem pubSorted_of_sort (l : List Article) :
    (sortByPubDesc l).Pairwise
      (fun a b => optLe b.published_at a.published_at = true) :=
  sortByDesc_pairwise _
    (fun a b => optLe_total a.published_at b.published_at)
    (fun a b c => optLe_trans a.published_at b.published_at c.published_at) l

/-- C7 (amended): for every positive limit n, get_all_articles returns at
most n rows, ordered by published_at descending with NULLs consistently
last (NULL sorts below every text value); with no limit (or the falsy limit
0, which drops the LIMIT clause) it returns all rows in that order. -/
theorem get_all_spec (db : DB) (n : Int) (h : 0 < n) :
    (get_all_articles db (some n)).length ≤ n.toNat ∧
    (get_all_articles db (some n)).Pairwise
      (fun a b => optLe b.published_at a.published_at = true) ∧
    (get_all_articles db none).Perm db.articles ∧
    (get_all_articles db none).Pairwise
      (fun a b => optLe b.published_at a.published_at = true) ∧
    (get_all_articles db (some 0)).Perm db.articles := by
  have h0 : ¬ (n = 0) := by omega
  have h1 : ¬ (n < 0) := by omega
  have hsome : get_all_articles db (some n) = (sortByPubDesc db.articles).take n.toNat := by
    simp [get_all_articles, h0, h1]
  have hnone : get_all_articles db none = sortByPubDesc db.articles := rfl
  have hzero : get_all_articles db (some 0) = sortByPubDesc db.articles := by
    simp [get_all_articles]
  refine ⟨?_, ?_, ?_, ?_, ?_⟩
  · rw [hsome]; exact List.length_take_le _ _
  · rw [hsome]
    exact (pubSorted_of_sort db.articles).sublist (List.take_sublist _ _)
  · rw [hnone]; exact sortByPubDesc_perm db.articles
  · rw [hnone]; exact pubSorted_of_sort db.articles
  · rw [hzero]; exact sortByPubDesc_perm db.articles

/-- Witness for C7's amended theorem at n = 1 on a one-row store. -/
theorem get_all_spec_witness :
    (get_all_articles dbOne (some 1)).length ≤ (1 : Int).toNat :=
  (get_all_spec dbOne 1 (by decide)).1

/-! ## C9: source adapter contract -/

/-- C9 (counterexample): a record returned by the Dev.to adapter carries no
"points" field at all (only the HackerNews adapter sets one), so the claim
that every returned record contains all of the enumerated fields including
points is false on the Dev.to side. -/
theorem devto_points_cex :
    devto_fetch "T" (Except.ok [({} : RawDevto)]) = [devtoProcess "T" {}] ∧
    (devtoProcess "T" ({} : RawDevto)).lookup "points" = none :=
  ⟨rfl, rfl⟩

/-- C9 (amended): both adapters never raise past their public entry point —
any fetch failure yields the empty sequence — and every returned record
contains all the fields its source guarantees with the documented defaults:
title, url, source, author, description, comments, reactions, reading_time,
tags and a timestamp on both sides, plus points on the HackerNews side only
(Dev.to records omit points; it defaults to 0 at persistence).  A fully
empty Dev.to payload record maps to the documented default values. -/
theorem adapters_shape_spec (now e1 e2 : String)
    (r1 : Except String (List RawDevto)) (r2 : Except String (List RawHNItem))
    (m : Nat) :
    devto_fetch now (Except.error e1) = [] ∧
    scrape_frontpage now (Except.error e2) m = [] ∧
    (∀ rec ∈ devto_fetch now r1, ∀ f ∈ devtoFields, (rec.lookup f).isSome = true) ∧
    (∀ rec ∈ scrape_frontpage now r2 m, ∀ f ∈ hnFields, (rec.lookup f).isSome = true) ∧
    devtoProcess now ({} : RawDevto) =
      [("title", .js ""), ("description", .js ""), ("url", .js ""),
       ("published_at", .js ""), ("tags", .jlist []), ("reactions", .jn 0),
       ("comments", .jn 0), ("reading_time", .jn 0), ("author", .js "Unknown"),
       ("source", .js "Dev.to"), ("fetched_at", .js now)] := by
  refine ⟨rfl, rfl, ?_, ?_, rfl⟩
  · intro rec hrec f hf
    cases r1 with
    | error e => simp [devto_fetch] at hrec
    | ok arts =>
      rcases List.mem_map.mp hrec with ⟨art, _, hae⟩
      subst hae
      simp only [devtoFields, List.mem_cons, List.not_mem_nil, or_false] at hf
      rcases hf with rfl | rfl | rfl | rfl | rfl | rfl | rfl | rfl | rfl | rfl | rfl <;> rfl
  · intro rec hrec f hf
    cases r2 with
    | error e => simp [scrape_frontpage] at hrec
    | ok items =>
      rcases List.mem_filterMap.mp hrec with ⟨it, _, hdict⟩
      cases hl : it.link with
      | none => simp [hnItemDict, hl] at hdict
      | some pr =>
        obtain ⟨ttl, href⟩ := pr
        cases hp : parsePoints it.scoreText with
        | none => simp [hnItemDict, hl, hp] at hdict
        | some pts =>
          simp only [hnItemDict, hl, hp, Option.some.injEq] at hdict
          subst hdict
          simp only [hnFields, List.mem_cons, List.not_mem_nil, or_false] at hf
          rcases hf with rfl | rfl | rfl | rfl | rfl | rfl | rfl | rfl | rfl | rfl | rfl <;> rfl

/-- Witness for C9's amended theorem: a failed Dev.to fetch is caught and
yields the empty sequence. -/
theorem adapters_shape_witness : devto_fetch "T" (Except.error "boom") = [] :=
  (adapters_shape_spec "T" "boom" "x" (Except.ok []) (Except.ok []) 5).1

end TechTrends
